import Mathlib

/-!
Verification of the static Huffman compression core (`app.py`).

The Python source is embedded shallowly:

* `HNode` models a Python `HuffmanNode` object *or* the value `None` (the
  constructor `HNode.pynone`), since `left`/`right` are initialised to `None`
  and the decoder may step onto `None`.
* Probabilities are modelled as rationals `ℚ`; all probability values used in
  the concrete examples below are dyadic, so the rational comparisons and sums
  agree exactly with the Python float ones.
* Python `dict`s keyed by strings become association lists with the insertion
  discipline of CPython dicts (`dictInsert`): an existing key keeps its
  position and gets the new value, a new key is appended.
* Fallible Python code (attribute access on `None`, `dict` subscript misses,
  subscripting `None`, `heap[0]` on the empty list) returns `Except PyErr` /
  `Option`.
* `heapq.heappush` is embedded as `heappush`/`siftdown`, following CPython's
  `_siftdown` exactly; `sorted(heap, key=lambda x: x.prob)` is embedded as the
  stable insertion sort `ssort` (any two stable sorts by the same key agree).
* The `while len(heap) > 1` loop of `build_tree` runs exactly
  `len(heap) - 1` iterations; it is embedded as `buildLoopF` with a fuel
  argument initialised to `len(heap)`, which therefore never runs out.
-/

deriving instance DecidableEq for Except

/-- A Python `HuffmanNode` object or `None`.  `pynone` stands for Python's
`None` (the initial value of `left` and `right`, and what the decoder can step
onto); `mk` is a `HuffmanNode` with its `symbol` (`None` for merged internal
nodes), its probability and its two children. -/
inductive HNode where
  | pynone : HNode
  | mk (symbol : Option String) (prob : ℚ) (left : HNode) (right : HNode) : HNode
deriving DecidableEq, Repr

/-- The Python exceptions the embedded code can raise. -/
inductive PyErr where
  | attributeError : PyErr
  | keyError (key : String) : PyErr
  | typeError : PyErr
  | indexError : PyErr
deriving DecidableEq, Repr

/-- One element of `merge_steps`:
`(left.symbol, left.prob, right.symbol, right.prob, merged.prob)`. -/
structure MergeStep where
  leftSymbol : Option String
  leftProb : ℚ
  rightSymbol : Option String
  rightProb : ℚ
  mergedProb : ℚ
deriving DecidableEq, Repr

/-- The `codes` dict: symbol to bit-string (a Python string of `'0'`/`'1'`,
modelled as its list of characters). -/
abbrev CodeTable := List (String × List Char)

/-- `self.prob`.  `pynone` has no `prob` attribute in Python; the `0` default
is never reached by the embedded code (the heap only ever holds real nodes). -/
def HNode.prob : HNode → ℚ
  | .pynone => 0
  | .mk _ p _ _ => p

/-- `self.symbol` (with the same caveat for `pynone` as `HNode.prob`). -/
def HNode.symbol : HNode → Option String
  | .pynone => none
  | .mk s _ _ _ => s

/-- `d[k] = v` on a CPython dict: an existing key keeps its position and gets
the new value, a new key is appended at the end. -/
def dictInsert {α : Type} (d : List (String × α)) (k : String) (v : α) :
    List (String × α) :=
  if d.any (fun p => p.1 == k) then
    d.map (fun p => if p.1 = k then (k, v) else p)
  else d ++ [(k, v)]

/-- `d[k]` / `d.get(k)` on a dict modelled as an association list. -/
def dlookup {α : Type} : List (String × α) → String → Option α
  | [], _ => none
  | p :: rest, k => if p.1 = k then some p.2 else dlookup rest k

/-- Insert a node into a list already sorted by probability, in front of the
first element of probability ≥ its own.  Together with `ssort` this is a
stable sort, which is what `sorted(heap, key=lambda x: x.prob)` guarantees. -/
def sinsert (x : HNode) : List HNode → List HNode
  | [] => [x]
  | y :: ys => if x.prob ≤ y.prob then x :: y :: ys else y :: sinsert x ys

/-- `sorted(heap, key=lambda x: x.prob)`: a stable sort by probability. -/
def ssort : List HNode → List HNode
  | [] => []
  | x :: xs => sinsert x (ssort xs)

/-- CPython `heapq._siftdown(heap, 0, pos)` with the element to place given
explicitly: while `pos > 0`, compare with the parent at `(pos - 1) / 2` via
`HuffmanNode.__lt__` (strict `<` on `prob`); a strictly larger parent moves
down and the walk continues, otherwise the new item lands at `pos`.  The
first argument is fuel making the recursion structural: the position strictly
decreases each round, so with fuel starting at the position (as `siftdown`
passes it) the fuel-exhausted branch is never reached. -/
def siftdownAux (newitem : HNode) : Nat → Nat → List HNode → List HNode
  | _, 0, heap => heap.set 0 newitem
  | 0, pos + 1, heap => heap.set (pos + 1) newitem
  | fuel + 1, pos + 1, heap =>
    match heap.get? (pos / 2) with
    | none => heap.set (pos + 1) newitem
    | some parent =>
      if newitem.prob < parent.prob then
        siftdownAux newitem fuel (pos / 2) (heap.set (pos + 1) parent)
      else heap.set (pos + 1) newitem

/-- CPython `heapq._siftdown(heap, 0, pos)`; see `siftdownAux`. -/
def siftdown (newitem : HNode) (pos : Nat) (heap : List HNode) : List HNode :=
  siftdownAux newitem pos pos heap

/-- `heapq.heappush(heap, item)`: append, then sift the appended item up. -/
def heappush (heap : List HNode) (item : HNode) : List HNode :=
  siftdown item heap.length (heap ++ [item])

/-- The `while len(heap) > 1` loop of `build_tree`.  Each iteration re-sorts
the active list stably by probability, pops the two front nodes, merges them
into a fresh symbol-less node, records the merge step and appends the merged
node at the end.  The loop shrinks the list by one per iteration, so with
`fuel` initialised to `len(heap)` (as `build_tree` does) the fuel never runs
out before `len(heap) ≤ 1`. -/
def buildLoopF : Nat → List HNode → List MergeStep → Option (HNode × List MergeStep)
  | _, [], _ => none
  | _, [n], steps => some (n, steps)
  | 0, _ :: _ :: _, _ => none
  | fuel + 1, h₁ :: h₂ :: t, steps =>
    let s := ssort (h₁ :: h₂ :: t)
    let l := s.getD 0 .pynone
    let r := s.getD 1 .pynone
    buildLoopF fuel (s.drop 2 ++ [HNode.mk none (l.prob + r.prob) l r])
      (steps ++ [⟨l.symbol, l.prob, r.symbol, r.prob, l.prob + r.prob⟩])

/-- `build_tree(prob_dict)`: one leaf per dict item (in insertion order),
pushed with `heapq.heappush`, then the merge loop; `heap[0]` of an empty heap
is an `IndexError`, modelled as `none`. -/
def build_tree (pd : List (String × ℚ)) : Option (HNode × List MergeStep) :=
  let heap := pd.foldl (fun h sp => heappush h (HNode.mk (some sp.1) sp.2 .pynone .pynone)) []
  buildLoopF heap.length heap []

/-- The recursive body of `generate_codes(node, current_code, codes)` with the
shared mutable `codes` dict threaded through.  A node with a symbol records
its accumulated code and stops; a symbol-less node recurses left with bit
`'0'` then right with bit `'1'`.  Recursing into a `None` child evaluates
`node.symbol` on `None`: an `AttributeError`. -/
def gcAux : HNode → List Char → CodeTable → Except PyErr CodeTable
  | .pynone, _, _ => .error .attributeError
  | .mk (some s) _ _ _, code, codes => .ok (dictInsert codes s code)
  | .mk none _ l r, code, codes =>
    match gcAux l (code ++ ['0']) codes with
    | .error e => .error e
    | .ok c₁ => gcAux r (code ++ ['1']) c₁

/-- The top-level call `generate_codes(root)` (with the defaults
`current_code=""`, `codes={}`).  When the root itself carries a symbol the
Python function stores `codes[root.symbol] = ""` into the fresh local dict and
then executes a bare `return`: the caller receives `None` (`.ok none`).
Otherwise the caller receives the filled dict. -/
def generate_codes : HNode → Except PyErr (Option CodeTable)
  | .pynone => .error .attributeError
  | .mk (some _) _ _ _ => .ok none
  | .mk none _ l r =>
    match gcAux l ['0'] [] with
    | .error e => .error e
    | .ok c₁ =>
      match gcAux r ['1'] c₁ with
      | .error e => .error e
      | .ok c₂ => .ok (some c₂)

/-- `encode_message(message, codes)`: `"".join(codes[ch] for ch in message)`.
The message is a Python string, iterated character by character; each
character is looked up as a one-character string in the `codes` dict, and a
missing entry raises `KeyError(ch)`. -/
def encode_message (msg : List Char) (codes : CodeTable) : Except PyErr (List Char) :=
  match msg with
  | [] => .ok []
  | ch :: rest =>
    match dlookup codes (String.mk [ch]) with
    | none => .error (.keyError (String.mk [ch]))
    | some c =>
      match encode_message rest codes with
      | .ok bs => .ok (c ++ bs)
      | .error e => .error e

/-- The loop of `decode_message`: for each bit, step to `current.left` when
the bit is the character `'0'` and to `current.right` otherwise; then test
`if current.symbol:` — Python truthiness, so `None` *and* the empty string
count as "not a leaf" — and on a truthy symbol append it to the decoded
string and reset to the root.  Stepping from `None`, or testing `.symbol` on
`None`, is an `AttributeError`. -/
def decodeLoop (root : HNode) : List Char → String → HNode → Except PyErr String
  | [], decoded, _ => .ok decoded
  | bit :: rest, decoded, current =>
    match current with
    | .pynone => .error .attributeError
    | .mk _ _ l r =>
      match (if bit = '0' then l else r) with
      | .pynone => .error .attributeError
      | .mk (some sym) p cl cr =>
        if sym = String.mk [] then decodeLoop root rest decoded (.mk (some sym) p cl cr)
        else decodeLoop root rest (decoded ++ sym) root
      | .mk none p cl cr => decodeLoop root rest decoded (.mk none p cl cr)

/-- `decode_message(encoded, root)`: start with `decoded = ""` and
`current = root`. -/
def decode_message (encoded : List Char) (root : HNode) : Except PyErr String :=
  decodeLoop root encoded (String.mk []) root

/-- The alphabet handling of the `/predict` route:
`prob_dict = dict(zip(letters, probs))`.  `zip` silently truncates to the
shorter sequence and the dict silently collapses duplicate symbols; no
validation of any kind is performed. -/
def parse_alphabet (letters : List String) (probs : List ℚ) : List (String × ℚ) :=
  (letters.zip probs).foldl (fun d kv => dictInsert d kv.1 kv.2) []

/-- The encode → decode round trip exactly as the `/predict` route runs it:
build the tree, derive `codes = generate_codes(root)` (which is Python `None`
for a single-leaf root), and — for a non-empty message, as guarded by
`if message:` — run `encode_message(message, codes)` followed by
`decode_message(encoded, root)`.  When `codes` is `None`, the first
subscript `codes[ch]` inside `encode_message` raises
`TypeError: 'NoneType' object is not subscriptable`. -/
def pipeline (pd : List (String × ℚ)) (msg : List Char) : Except PyErr String :=
  match build_tree pd with
  | none => .error .indexError
  | some (root, _) =>
    match generate_codes root with
    | .error e => .error e
    | .ok codesOpt =>
      if msg = [] then .ok (String.mk [])
      else
        match codesOpt with
        | none => .error .typeError
        | some codes =>
          match encode_message msg codes with
          | .error e => .error e
          | .ok bits => decode_message bits root

/-- Modelled from the spec: the Tree Builder's tie-break exactly as the spec
defines it — the active nodes kept in the original insertion order of the
alphabet, each round stably sorted by probability (so an equal-probability
node inserted earlier is preferred), the two smallest merged, and the merged
node appended at the end (so ties among merged nodes resolve by creation
time, earliest first).  This differs from `build_tree` only in skipping the
initial `heapq.heappush` calls, and exists solely to compare the code's
tie-break against the spec's. -/
def build_tree_stable (pd : List (String × ℚ)) : Option (HNode × List MergeStep) :=
  let heap := pd.map (fun sp => HNode.mk (some sp.1) sp.2 .pynone .pynone)
  buildLoopF heap.length heap []

/-- The first recorded merge step of `build_tree`, for comparing tie-breaks. -/
def firstMerge (pd : List (String × ℚ)) : Option MergeStep :=
  (build_tree pd).bind (fun x => x.2.head?)

/-- The first merge step of the spec's insertion-order-stable builder. -/
def firstMergeStable (pd : List (String × ℚ)) : Option MergeStep :=
  (build_tree_stable pd).bind (fun x => x.2.head?)

/-- `symbol, path-from-root` of every node at which the `generate_codes`
traversal stops (a node whose `symbol` is not `None`), in traversal order.
`gcAux` inserts exactly these entries into the dict. -/
def stopEntries : HNode → List Char → List (String × List Char)
  | .pynone, _ => []
  | .mk (some s) _ _ _, code => [(s, code)]
  | .mk none _ l r, code => stopEntries l (code ++ ['0']) ++ stopEntries r (code ++ ['1'])

/-- Fold a list of key/value pairs into a dict with `dictInsert`. -/
def insertAll (d : CodeTable) (es : List (String × List Char)) : CodeTable :=
  es.foldl (fun acc e => dictInsert acc e.1 e.2) d

/-- Structural well-formedness of the trees `build_tree` produces: a node
carrying a symbol is a leaf (both children `None`), and a symbol-less node
has two real children whose probabilities sum to its own.  `None` itself is
not a well-formed tree. -/
def proper : HNode → Bool
  | .pynone => false
  | .mk (some _) _ l r => decide (l = .pynone) && decide (r = .pynone)
  | .mk none p l r => proper l && proper r && decide (p = l.prob + r.prob)

/-! ## Concretely evaluated claims -/

/-- C3, counterexample.  The claim says that on equal probabilities the node
inserted earlier in the original alphabet order is preferred.  For the
alphabet `a:1/8, b:3/8, c:1/4, d:1/4` (in that insertion order) the code's
first merge pairs `a` with `d`, although `c` and `d` have equal probability
and `c` was inserted earlier: the initial `heapq.heappush` calls sift `d`
above `c` in the heap array (past the larger `b`), and the loop's stable sort
only preserves *that* array order.  The spec's own insertion-order-stable
rule (`firstMergeStable`) picks `c`. -/
theorem c3_tiebreak_counterexample :
    firstMerge [("a", (1:ℚ)/8), ("b", 3/8), ("c", 1/4), ("d", 1/4)] =
      some ⟨some "a", 1/8, some "d", 1/4, 3/8⟩ ∧
    firstMergeStable [("a", (1:ℚ)/8), ("b", 3/8), ("c", 1/4), ("d", 1/4)] =
      some ⟨some "a", 1/8, some "c", 1/4, 3/8⟩ := by
  constructor
  · with_unfolding_all decide
  · with_unfolding_all decide

/-- C3, amended.  Selection is a deterministic function of the input order,
and for the all-equal alphabet `{a:1/4, b:1/4, c:1/4, d:1/4}` (where
`heappush` leaves the insertion order intact) the merge sequence is exactly
the insertion-order-stable one: `(a,b)`, then `(c,d)`, then the two merged
nodes. -/
theorem c3_equal_probs_merge_order :
    build_tree [("a", (1:ℚ)/4), ("b", 1/4), ("c", 1/4), ("d", 1/4)] =
      some (HNode.mk none 1
        (HNode.mk none (1/2) (HNode.mk (some "a") (1/4) .pynone .pynone)
          (HNode.mk (some "b") (1/4) .pynone .pynone))
        (HNode.mk none (1/2) (HNode.mk (some "c") (1/4) .pynone .pynone)
          (HNode.mk (some "d") (1/4) .pynone .pynone)),
      [⟨some "a", 1/4, some "b", 1/4, 1/2⟩,
       ⟨some "c", 1/4, some "d", 1/4, 1/2⟩,
       ⟨none, 1/2, none, 1/2, 1⟩]) := by
  with_unfolding_all decide

/-- C4.  For the single-symbol alphabet `{a: 1}` the build does produce a
single leaf with no merge steps (that half of the claim holds), but
`generate_codes` then returns Python `None` — it stores the *empty* code for
`a` into a discarded local dict — so the symbol never receives the code `"0"`
the claim requires. -/
theorem c4_single_symbol_no_zero_code :
    build_tree [("a", (1:ℚ))] = some (HNode.mk (some "a") 1 .pynone .pynone, []) ∧
    generate_codes (HNode.mk (some "a") 1 .pynone .pynone) = .ok none := by
  constructor
  · with_unfolding_all decide
  · with_unfolding_all decide

/-- C5.  Decoding the bit-string `"1"` against the tree built from
`{a:1/2, b:1/4, c:1/4}` ends mid-walk (at the internal node above `b`/`c`),
yet `decode_message` returns the symbols decoded so far — here the empty
string — with no error at all: the claimed `MalformedEncodingError` does not
exist in the code. -/
theorem c5_truncated_bitstring_silently_decoded :
    (build_tree [("a", (1:ℚ)/2), ("b", 1/4), ("c", 1/4)]).map
        (fun x => decode_message ['1'] x.1) =
      some (.ok (String.mk [])) := by
  with_unfolding_all decide

/-- C6.  The alphabet handling of `/predict` performs no validation at all:
mismatched lengths are silently truncated by `zip`, a duplicate symbol
silently keeps only the last probability, a non-positive probability is
accepted, and an empty alphabet is accepted (and later crashes `build_tree`
with an `IndexError` — modelled `none` — when `heap[0]` is read).  The
claimed `ValidationError` does not exist in the code. -/
theorem c6_no_alphabet_validation :
    parse_alphabet ["a", "b"] [(1:ℚ)/2] = [("a", 1/2)] ∧
    parse_alphabet ["a", "a"] [(1:ℚ)/2, 1/3] = [("a", 1/3)] ∧
    parse_alphabet ["a"] [-(1:ℚ)] = [("a", -1)] ∧
    parse_alphabet [] [] = ([] : List (String × ℚ)) ∧
    build_tree [] = none := by
  refine ⟨?_, ?_, ?_, ?_, ?_⟩ <;> with_unfolding_all decide

/-- C7.  Encoding the message `"xa"` against the table `{a: "0", b: "1"}`
fails at the unknown symbol `x` with a bare `KeyError` carrying only the
symbol: no position is reported, and no `UnknownSymbolError` type exists in
the code. -/
theorem c7_encode_keyerror_no_position :
    encode_message ['x', 'a'] [("a", ['0']), ("b", ['1'])] =
      .error (.keyError "x") := by
  with_unfolding_all decide

/-- C8.  A symbol-less node with exactly one child makes `generate_codes`
recurse into the missing child and die with an `AttributeError`
(`None.symbol`), not the claimed `StructuralError`; and when the one-child
node *carries* a symbol the traversal stops at it and code generation
succeeds with no error at all. -/
theorem c8_one_child_attribute_error :
    generate_codes (HNode.mk none (1/2)
        (HNode.mk (some "a") ((1:ℚ)/2) .pynone .pynone) .pynone) =
      .error .attributeError ∧
    generate_codes (HNode.mk none 1
        (HNode.mk (some "a") ((1:ℚ)/2) (HNode.mk (some "x") (1/4) .pynone .pynone) .pynone)
        (HNode.mk (some "b") (1/2) .pynone .pynone)) =
      .ok (some [("a", ['0']), ("b", ['1'])]) := by
  constructor
  · with_unfolding_all decide
  · with_unfolding_all decide

/-- C10.  For every single-symbol alphabet the build returns the bare leaf,
and `generate_codes` on a leaf root stores the empty code into a local dict
and then executes a bare `return`: the caller receives Python `None`
(`.ok none`), not a code table. -/
theorem c10_leaf_root_returns_none (s : String) (p : ℚ) :
    build_tree [(s, p)] = some (HNode.mk (some s) p .pynone .pynone, []) ∧
    generate_codes (HNode.mk (some s) p .pynone .pynone) = .ok none := by
  constructor
  · rfl
  · rfl

theorem sinsert_perm (x : HNode) (l : List HNode) : (sinsert x l).Perm (x :: l) := by
  induction l with
  | nil => exact List.Perm.refl _
  | cons y ys ih =>
    simp only [sinsert]
    split
    · exact List.Perm.refl _
    · exact (List.Perm.cons y ih).trans (List.Perm.swap x y ys)

theorem ssort_perm (l : List HNode) : (ssort l).Perm l := by
  induction l with
  | nil => exact List.Perm.refl _
  | cons x xs ih => exact (sinsert_perm x (ssort xs)).trans (List.Perm.cons x ih)

theorem ssort_length (l : List HNode) : (ssort l).length = l.length :=
  (ssort_perm l).length_eq

theorem mem_ssort {x : HNode} {l : List HNode} : x ∈ ssort l ↔ x ∈ l :=
  (ssort_perm l).mem_iff

theorem mem_siftdownAux (n : HNode) :
    ∀ (fuel pos : Nat) (heap : List HNode) (x : HNode),
      x ∈ siftdownAux n fuel pos heap → x ∈ heap ∨ x = n := by
  intro fuel
  induction fuel with
  | zero =>
    intro pos heap x hx
    cases pos <;> exact List.mem_or_eq_of_mem_set hx
  | succ fuel ih =>
    intro pos heap x hx
    cases pos with
    | zero => exact List.mem_or_eq_of_mem_set hx
    | succ pos =>
      simp only [siftdownAux] at hx
      split at hx
      · exact List.mem_or_eq_of_mem_set hx
      · rename_i parent hg
        split at hx
        · rcases ih _ _ x hx with h | h
          · rcases List.mem_or_eq_of_mem_set h with h' | h'
            · exact Or.inl h'
            · exact Or.inl (h' ▸ List.get?_mem hg)
          · exact Or.inr h
        · exact List.mem_or_eq_of_mem_set hx

theorem mem_heappush {heap : List HNode} {item x : HNode}
    (hx : x ∈ heappush heap item) : x ∈ heap ∨ x = item := by
  rcases mem_siftdownAux item _ _ _ x hx with h | h
  · rcases List.mem_append.mp h with h' | h'
    · exact Or.inl h'
    · exact Or.inr (List.mem_singleton.mp h')
  · exact Or.inr h

theorem mem_foldl_heappush (P : HNode → Prop) :
    ∀ (pd : List (String × ℚ)) (acc : List HNode),
      (∀ x ∈ acc, P x) →
      (∀ sp ∈ pd, P (HNode.mk (some sp.1) sp.2 .pynone .pynone)) →
      ∀ x ∈ pd.foldl (fun h sp => heappush h (HNode.mk (some sp.1) sp.2 .pynone .pynone)) acc,
        P x := by
  intro pd
  induction pd with
  | nil => intro acc hacc _ x hx; exact hacc x hx
  | cons sp rest ih =>
    intro acc hacc hpd x hx
    refine ih _ ?_ (fun q hq => hpd q (List.mem_cons_of_mem _ hq)) x hx
    intro y hy
    rcases mem_heappush hy with h | h
    · exact hacc y h
    · exact h ▸ hpd sp (List.mem_cons_self sp rest)

theorem getD_mem_of_lt {l : List HNode} {i : Nat} (h : i < l.length) :
    l.getD i .pynone ∈ l := by
  rw [List.getD_eq_getElem l .pynone h]
  exact List.getElem_mem h

theorem buildLoopF_proper :
    ∀ (fuel : Nat) (heap : List HNode) (steps : List MergeStep)
      (root : HNode) (out : List MergeStep),
      (∀ x ∈ heap, proper x = true) →
      (∀ st ∈ steps, st.mergedProb = st.leftProb + st.rightProb) →
      buildLoopF fuel heap steps = some (root, out) →
      proper root = true ∧ ∀ st ∈ out, st.mergedProb = st.leftProb + st.rightProb := by
  intro fuel
  induction fuel with
  | zero =>
    intro heap steps root out hheap hsteps hres
    match heap with
    | [] => simp [buildLoopF] at hres
    | [n] =>
      simp only [buildLoopF, Option.some.injEq, Prod.mk.injEq] at hres
      obtain ⟨rfl, rfl⟩ := hres
      exact ⟨hheap n (by simp), hsteps⟩
    | h₁ :: h₂ :: t => simp [buildLoopF] at hres
  | succ fuel ih =>
    intro heap steps root out hheap hsteps hres
    match heap with
    | [] => simp [buildLoopF] at hres
    | [n] =>
      simp only [buildLoopF, Option.some.injEq, Prod.mk.injEq] at hres
      obtain ⟨rfl, rfl⟩ := hres
      exact ⟨hheap n (by simp), hsteps⟩
    | h₁ :: h₂ :: t =>
      simp only [buildLoopF] at hres
      have hlen : (ssort (h₁ :: h₂ :: t)).length = t.length + 2 := by
        rw [ssort_length]; simp
      have hmem : ∀ x ∈ ssort (h₁ :: h₂ :: t), proper x = true :=
        fun x hx => hheap x (mem_ssort.mp hx)
      have hl : proper ((ssort (h₁ :: h₂ :: t)).getD 0 .pynone) = true :=
        hmem _ (getD_mem_of_lt (by omega))
      have hr : proper ((ssort (h₁ :: h₂ :: t)).getD 1 .pynone) = true :=
        hmem _ (getD_mem_of_lt (by omega))
      refine ih _ _ _ _ ?_ ?_ hres
      · intro x hx
        rcases List.mem_append.mp hx with h | h
        · exact hmem x (List.mem_of_mem_drop h)
        · rcases List.mem_singleton.mp h with rfl
          simp only [proper, hl, hr, Bool.true_and]
          exact decide_eq_true trivial
      · intro st hst
        rcases List.mem_append.mp hst with h | h
        · exact hsteps st h
        · rcases List.mem_singleton.mp h with rfl
          rfl

theorem build_tree_proper {pd : List (String × ℚ)} {root : HNode}
    {steps : List MergeStep} (hb : build_tree pd = some (root, steps)) :
    proper root = true ∧ ∀ st ∈ steps, st.mergedProb = st.leftProb + st.rightProb := by
  refine buildLoopF_proper _ _ _ _ _ ?_ (by simp) hb
  refine mem_foldl_heappush (fun x => proper x = true) pd [] (by simp) ?_
  intro sp _
  simp [proper]

/-- C9.  Every tree `build_tree` returns is structurally well-formed: a node
carrying a symbol is a leaf, a symbol-less (internal) node has exactly two
real children and its probability is the sum of theirs (`proper`), and every
recorded merge step's merged probability is the sum of its left and right
probabilities. -/
theorem c9_internal_nodes_wellformed (pd : List (String × ℚ)) (root : HNode)
    (steps : List MergeStep) (hb : build_tree pd = some (root, steps)) :
    proper root = true ∧
      ∀ st ∈ steps, st.mergedProb = st.leftProb + st.rightProb :=
  build_tree_proper hb

/-- C9, witness: the invariant instantiated on the concrete alphabet
`{a:1/2, b:1/2}`. -/
theorem c9_witness :
    proper (HNode.mk none 1 (HNode.mk (some "a") ((1:ℚ)/2) .pynone .pynone)
        (HNode.mk (some "b") (1/2) .pynone .pynone)) = true ∧
      ∀ st ∈ [(⟨some "a", (1:ℚ)/2, some "b", 1/2, 1⟩ : MergeStep)],
        st.mergedProb = st.leftProb + st.rightProb :=
  c9_internal_nodes_wellformed [("a", (1:ℚ)/2), ("b", 1/2)] _ _
    (by with_unfolding_all decide)

theorem dlookup_map_ow {α : Type} (k : String) (v : α) :
    ∀ (d : List (String × α)) (k' : String) (w : α),
      dlookup (d.map (fun p => if p.1 = k then (k, v) else p)) k' = some w →
      (k' = k ∧ w = v) ∨ dlookup d k' = some w := by
  intro d
  induction d with
  | nil => intro k' w h; simp [dlookup] at h
  | cons p rest ih =>
    intro k' w h
    by_cases hp : p.1 = k
    · simp only [List.map, hp, if_pos, dlookup] at h
      by_cases hk : k = k'
      · rw [if_pos hk] at h
        exact Or.inl ⟨hk.symm, (Option.some.inj h).symm⟩
      · rw [if_neg hk] at h
        rcases ih k' w h with h' | h'
        · exact Or.inl h'
        · right
          rw [dlookup, if_neg (fun hc => hk (hp ▸ hc)), h']
    · simp only [List.map, hp, if_neg, if_false, dlookup] at h
      by_cases hk : p.1 = k'
      · rw [if_pos hk] at h
        right
        rw [dlookup, if_pos hk]
        exact h
      · rw [if_neg hk] at h
        rcases ih k' w h with h' | h'
        · exact Or.inl h'
        · right
          rw [dlookup, if_neg hk, h']

theorem dlookup_append_ow {α : Type} :
    ∀ (d : List (String × α)) (k : String) (v : α) (k' : String) (w : α),
      dlookup (d ++ [(k, v)]) k' = some w →
      (k' = k ∧ w = v) ∨ dlookup d k' = some w := by
  intro d
  induction d with
  | nil =>
    intro k v k' w h
    simp only [List.nil_append, dlookup] at h
    by_cases hk : k = k'
    · rw [if_pos hk] at h
      exact Or.inl ⟨hk.symm, (Option.some.inj h).symm⟩
    · rw [if_neg hk] at h
      exact absurd h (by simp)
  | cons p rest ih =>
    intro k v k' w h
    simp only [List.cons_append, dlookup] at h
    by_cases hk : p.1 = k'
    · rw [if_pos hk] at h
      right
      rw [dlookup, if_pos hk]
      exact h
    · rw [if_neg hk] at h
      rcases ih k v k' w h with h' | h'
      · exact Or.inl h'
      · right
        rw [dlookup, if_neg hk, h']

theorem dlookup_dictInsert_ow {α : Type} (d : List (String × α)) (k : String)
    (v : α) (k' : String) (w : α)
    (h : dlookup (dictInsert d k v) k' = some w) :
    (k' = k ∧ w = v) ∨ dlookup d k' = some w := by
  unfold dictInsert at h
  split at h
  · exact dlookup_map_ow k v d k' w h
  · exact dlookup_append_ow d k v k' w h

theorem dlookup_insertAll_src :
    ∀ (es : List (String × List Char)) (d : CodeTable) (k : String) (v : List Char),
      dlookup (insertAll d es) k = some v → (k, v) ∈ es ∨ dlookup d k = some v := by
  intro es
  induction es with
  | nil => intro d k v h; exact Or.inr h
  | cons e rest ih =>
    intro d k v h
    rcases ih (dictInsert d e.1 e.2) k v h with h' | h'
    · exact Or.inl (List.mem_cons_of_mem _ h')
    · rcases dlookup_dictInsert_ow d e.1 e.2 k v h' with ⟨rfl, rfl⟩ | h''
      · exact Or.inl (by simp)
      · exact Or.inr h''

theorem insertAll_append (d : CodeTable) (es₁ es₂ : List (String × List Char)) :
    insertAll d (es₁ ++ es₂) = insertAll (insertAll d es₁) es₂ :=
  List.foldl_append _ _ _ _

theorem gcAux_ok :
    ∀ (n : HNode) (code : List Char) (codes res : CodeTable),
      gcAux n code codes = .ok res → res = insertAll codes (stopEntries n code) := by
  intro n
  induction n with
  | pynone => intro code codes res h; simp [gcAux] at h
  | mk symb p l r ihl ihr =>
    intro code codes res h
    cases symb with
    | some s =>
      simp only [gcAux, Except.ok.injEq] at h
      simp [stopEntries, insertAll, ← h]
    | none =>
      simp only [gcAux] at h
      cases hl : gcAux l (code ++ ['0']) codes with
      | error e => rw [hl] at h; exact absurd h (by simp)
      | ok c₁ =>
        rw [hl] at h
        rw [stopEntries, insertAll_append, ← ihl _ _ _ hl]
        exact ihr _ _ _ h

theorem generate_codes_ok {root : HNode} {codes : CodeTable}
    (h : generate_codes root = .ok (some codes)) :
    root.symbol = none ∧ codes = insertAll [] (stopEntries root []) := by
  cases root with
  | pynone => simp [generate_codes] at h
  | mk symb p l r =>
    cases symb with
    | some s => simp [generate_codes] at h
    | none =>
      refine ⟨rfl, ?_⟩
      simp only [generate_codes] at h
      cases hl : gcAux l ['0'] [] with
      | error e => rw [hl] at h; exact absurd h (by simp)
      | ok c₁ =>
        rw [hl] at h
        dsimp only at h
        cases hr : gcAux r ['1'] c₁ with
        | error e => rw [hr] at h; exact absurd h (by simp)
        | ok c₂ =>
          rw [hr] at h
          obtain rfl : c₂ = codes := by
            simpa using h
          simp only [stopEntries, List.nil_append, insertAll_append]
          rw [← gcAux_ok _ _ _ _ hl]
          exact gcAux_ok _ _ _ _ hr

theorem stopEntries_starts :
    ∀ (n : HNode) (code : List Char) (s : String) (c : List Char),
      (s, c) ∈ stopEntries n code → ∃ tail, c = code ++ tail := by
  intro n
  induction n with
  | pynone => intro code s c h; simp [stopEntries] at h
  | mk symb p l r ihl ihr =>
    intro code s c h
    cases symb with
    | some s' =>
      simp only [stopEntries, List.mem_singleton, Prod.mk.injEq] at h
      exact ⟨[], by rw [h.2, List.append_nil]⟩
    | none =>
      simp only [stopEntries, List.mem_append] at h
      rcases h with h | h
      · obtain ⟨t, rfl⟩ := ihl _ _ _ h
        exact ⟨'0' :: t, by simp⟩
      · obtain ⟨t, rfl⟩ := ihr _ _ _ h
        exact ⟨'1' :: t, by simp⟩

theorem stopEntries_prefix_free :
    ∀ (n : HNode) (code : List Char) (s₁ : String) (c₁ : List Char)
      (s₂ : String) (c₂ : List Char),
      (s₁, c₁) ∈ stopEntries n code → (s₂, c₂) ∈ stopEntries n code →
      c₁ <+: c₂ → s₁ = s₂ ∧ c₁ = c₂ := by
  intro n
  induction n with
  | pynone => intro code s₁ c₁ s₂ c₂ h₁ _ _; simp [stopEntries] at h₁
  | mk symb p l r ihl ihr =>
    intro code s₁ c₁ s₂ c₂ h₁ h₂ hpre
    cases symb with
    | some s' =>
      simp only [stopEntries, List.mem_singleton, Prod.mk.injEq] at h₁ h₂
      exact ⟨h₁.1.trans h₂.1.symm, h₁.2.trans h₂.2.symm⟩
    | none =>
      simp only [stopEntries, List.mem_append] at h₁ h₂
      rcases h₁ with h₁ | h₁ <;> rcases h₂ with h₂ | h₂
      · exact ihl _ _ _ _ _ h₁ h₂ hpre
      · obtain ⟨t₁, rfl⟩ := stopEntries_starts _ _ _ _ h₁
        obtain ⟨t₂, rfl⟩ := stopEntries_starts _ _ _ _ h₂
        obtain ⟨u, hu⟩ := hpre
        rw [List.append_assoc, List.append_assoc, List.append_assoc] at hu
        have := List.append_cancel_left hu
        simp at this
      · obtain ⟨t₁, rfl⟩ := stopEntries_starts _ _ _ _ h₁
        obtain ⟨t₂, rfl⟩ := stopEntries_starts _ _ _ _ h₂
        obtain ⟨u, hu⟩ := hpre
        rw [List.append_assoc, List.append_assoc, List.append_assoc] at hu
        have := List.append_cancel_left hu
        simp at this
      · exact ihr _ _ _ _ _ h₁ h₂ hpre

/-- C2.  The code table derived from any tree the Tree Builder produces is
prefix-free: two entries of the table with distinct symbols have
prefix-incomparable bit-strings.  (This holds because the `generate_codes`
traversal never descends below a node that carries a symbol, so every
recorded code is the path of a distinct stop node.) -/
theorem c2_code_table_prefix_free (pd : List (String × ℚ)) (root : HNode)
    (steps : List MergeStep) (codes : CodeTable) (s₁ s₂ : String)
    (c₁ c₂ : List Char)
    (_hb : build_tree pd = some (root, steps))
    (hg : generate_codes root = .ok (some codes))
    (hne : s₁ ≠ s₂)
    (h₁ : dlookup codes s₁ = some c₁)
    (h₂ : dlookup codes s₂ = some c₂) :
    ¬ c₁ <+: c₂ := by
  intro hpre
  obtain ⟨-, rfl⟩ := generate_codes_ok hg
  have m₁ : (s₁, c₁) ∈ stopEntries root [] := by
    rcases dlookup_insertAll_src _ _ _ _ h₁ with h | h
    · exact h
    · simp [dlookup] at h
  have m₂ : (s₂, c₂) ∈ stopEntries root [] := by
    rcases dlookup_insertAll_src _ _ _ _ h₂ with h | h
    · exact h
    · simp [dlookup] at h
  exact hne (stopEntries_prefix_free _ _ _ _ _ _ m₁ m₂ hpre).1

/-- C2, witness: the table built from `{a:1/2, b:1/4, c:1/4}` is
`{a:"0", b:"10", c:"11"}`, and `a`'s code is not a prefix of `b`'s. -/
theorem c2_witness :
    generate_codes (HNode.mk none 1 (HNode.mk (some "a") ((1:ℚ)/2) .pynone .pynone)
        (HNode.mk none (1/2) (HNode.mk (some "b") (1/4) .pynone .pynone)
          (HNode.mk (some "c") (1/4) .pynone .pynone))) =
      .ok (some [("a", ['0']), ("b", ['1', '0']), ("c", ['1', '1'])]) ∧
    ¬ ['0'] <+: ['1', '0'] :=
  ⟨by with_unfolding_all decide,
    c2_code_table_prefix_free [("a", (1:ℚ)/2), ("b", 1/4), ("c", 1/4)]
      (HNode.mk none 1 (HNode.mk (some "a") ((1:ℚ)/2) .pynone .pynone)
        (HNode.mk none (1/2) (HNode.mk (some "b") (1/4) .pynone .pynone)
          (HNode.mk (some "c") (1/4) .pynone .pynone)))
      [⟨some "b", 1/4, some "c", 1/4, 1/2⟩, ⟨some "a", 1/2, none, 1/2, 1⟩]
      [("a", ['0']), ("b", ['1', '0']), ("c", ['1', '1'])]
      "a" "b" ['0'] ['1', '0'] (by with_unfolding_all decide)
      (by with_unfolding_all decide) (by decide) (by with_unfolding_all decide)
      (by with_unfolding_all decide)⟩

theorem str_append_mk (a b : List Char) :
    String.mk a ++ String.mk b = String.mk (a ++ b) := rfl

theorem str_append_empty (s : String) : s ++ String.mk [] = s := by
  cases s
  simp [String.append]

theorem str_empty_append (s : String) : String.mk [] ++ s = s := by
  cases s
  simp [String.append]

theorem stopEntries_shift :
    ∀ (n : HNode) (pre : List Char),
      stopEntries n pre = (stopEntries n []).map (fun e => (e.1, pre ++ e.2)) := by
  intro n
  induction n with
  | pynone => intro pre; simp [stopEntries]
  | mk symb p l r ihl ihr =>
    intro pre
    cases symb with
    | some s => simp [stopEntries]
    | none =>
      simp only [stopEntries, List.nil_append, List.map_append,
        ihl (pre ++ ['0']), ihl ['0'], ihr (pre ++ ['1']), ihr ['1'],
        List.map_map]
      refine congrArg₂ (· ++ ·) ?_ ?_ <;>
        exact List.map_congr_left (fun e _ => by simp [Function.comp, List.append_assoc])

theorem decodeLoop_cons (root : HNode) (bit : Char) (rest : List Char)
    (decoded : String) (sy : Option String) (p : ℚ) (l r : HNode) :
    decodeLoop root (bit :: rest) decoded (.mk sy p l r) =
      match (if bit = '0' then l else r) with
      | .pynone => .error .attributeError
      | .mk (some sym) p' cl cr =>
        if sym = String.mk [] then
          decodeLoop root rest decoded (.mk (some sym) p' cl cr)
        else decodeLoop root rest (decoded ++ sym) root
      | .mk none p' cl cr => decodeLoop root rest decoded (.mk none p' cl cr) := rfl

theorem decode_walk :
    ∀ (n : HNode), proper n = true → n.symbol = none →
      ∀ (s : String) (c : List Char), (s, c) ∈ stopEntries n [] →
        s ≠ String.mk [] →
        ∀ (root : HNode) (rest : List Char) (decoded : String),
          decodeLoop root (c ++ rest) decoded n =
            decodeLoop root rest (decoded ++ s) root := by
  intro n
  induction n with
  | pynone => intro hp; simp [proper] at hp
  | mk symb p l r ihl ihr =>
    intro hp hsym s c hmem hs root rest decoded
    obtain rfl : symb = none := hsym
    have hpl : proper l = true := by
      simp only [proper, Bool.and_eq_true] at hp; exact hp.1.1
    have hpr : proper r = true := by
      simp only [proper, Bool.and_eq_true] at hp; exact hp.1.2
    simp only [stopEntries, List.nil_append, List.mem_append] at hmem
    rcases hmem with hm | hm
    · rw [stopEntries_shift l ['0']] at hm
      obtain ⟨⟨s', c'⟩, hm', he⟩ := List.mem_map.mp hm
      simp only [Prod.mk.injEq] at he
      obtain ⟨rfl, rfl⟩ := he
      simp only [List.cons_append, List.nil_append]
      rw [decodeLoop_cons, if_pos rfl]
      cases l with
      | pynone => simp [proper] at hpl
      | mk symbl pl cl cr =>
        cases symbl with
        | some sym =>
          simp only [stopEntries, List.mem_singleton, Prod.mk.injEq] at hm'
          obtain ⟨rfl, rfl⟩ := hm'
          dsimp only
          rw [if_neg hs]
          simp only [List.nil_append]
        | none =>
          exact ihl hpl rfl s' c' hm' hs root rest decoded
    · rw [stopEntries_shift r ['1']] at hm
      obtain ⟨⟨s', c'⟩, hm', he⟩ := List.mem_map.mp hm
      simp only [Prod.mk.injEq] at he
      obtain ⟨rfl, rfl⟩ := he
      simp only [List.cons_append, List.nil_append]
      rw [decodeLoop_cons, if_neg (by decide)]
      cases r with
      | pynone => simp [proper] at hpr
      | mk symbr pr cl cr =>
        cases symbr with
        | some sym =>
          simp only [stopEntries, List.mem_singleton, Prod.mk.injEq] at hm'
          obtain ⟨rfl, rfl⟩ := hm'
          dsimp only
          rw [if_neg hs]
          simp only [List.nil_append]
        | none =>
          exact ihr hpr rfl s' c' hm' hs root rest decoded

theorem encode_total :
    ∀ (msg : List Char) (codes : CodeTable),
      (∀ ch ∈ msg, (dlookup codes (String.mk [ch])).isSome) →
      ∃ bits, encode_message msg codes = .ok bits := by
  intro msg
  induction msg with
  | nil => intro codes _; exact ⟨[], rfl⟩
  | cons ch rest ih =>
    intro codes hm
    obtain ⟨c, hc⟩ := Option.isSome_iff_exists.mp (hm ch (by simp))
    obtain ⟨bs, hbs⟩ := ih codes (fun x hx => hm x (List.mem_cons_of_mem _ hx))
    refine ⟨c ++ bs, ?_⟩
    simp only [encode_message, hc, hbs]

theorem roundtrip_aux (root : HNode) (codes : CodeTable)
    (hproper : proper root = true) (hsym : root.symbol = none)
    (hcodes : ∀ s c, dlookup codes s = some c → (s, c) ∈ stopEntries root []) :
    ∀ (msg : List Char) (bits : List Char) (decoded : String),
      encode_message msg codes = .ok bits →
      decodeLoop root bits decoded root = .ok (decoded ++ String.mk msg) := by
  intro msg
  induction msg with
  | nil =>
    intro bits decoded h
    obtain rfl : ([] : List Char) = bits := by simpa [encode_message] using h
    simp only [decodeLoop, str_append_empty]
  | cons ch rest ih =>
    intro bits decoded h
    simp only [encode_message] at h
    cases hlu : dlookup codes (String.mk [ch]) with
    | none => rw [hlu] at h; exact absurd h (by simp)
    | some c =>
      rw [hlu] at h
      dsimp only at h
      cases henc : encode_message rest codes with
      | error e => rw [henc] at h; exact absurd h (by simp)
      | ok bs =>
        rw [henc] at h
        obtain rfl : c ++ bs = bits := by simpa using h
        have hne : String.mk [ch] ≠ String.mk [] := by
          intro hc
          exact List.cons_ne_nil ch [] (by injection hc)
        rw [decode_walk root hproper hsym _ _ (hcodes _ _ hlu) hne root bs decoded]
        rw [ih bs _ henc]
        rw [String.append_assoc, str_append_mk]
        rfl

/-- C1, amended.  Whenever `generate_codes` actually returns a table (its
result is `.ok (some codes)`, i.e. the alphabet has at least two symbols),
decoding inverts encoding: every message whose characters all have entries in
the table encodes successfully and decodes back to itself. -/
theorem c1_roundtrip (pd : List (String × ℚ)) (root : HNode)
    (steps : List MergeStep) (codes : CodeTable) (msg : List Char)
    (hb : build_tree pd = some (root, steps))
    (hg : generate_codes root = .ok (some codes))
    (hm : ∀ ch ∈ msg, (dlookup codes (String.mk [ch])).isSome) :
    ∃ bits, encode_message msg codes = .ok bits ∧
      decode_message bits root = .ok (String.mk msg) := by
  obtain ⟨hsym, hcodes⟩ := generate_codes_ok hg
  obtain ⟨hproper, -⟩ := build_tree_proper hb
  obtain ⟨bits, hbits⟩ := encode_total msg codes hm
  refine ⟨bits, hbits, ?_⟩
  have hsrc : ∀ s c, dlookup codes s = some c → (s, c) ∈ stopEntries root [] := by
    intro s c h
    rw [hcodes] at h
    rcases dlookup_insertAll_src _ _ _ _ h with h' | h'
    · exact h'
    · simp [dlookup] at h'
  have hrt := roundtrip_aux root codes hproper hsym hsrc msg bits (String.mk []) hbits
  rw [decode_message, hrt, str_empty_append]

/-- C1, counterexample.  For the single-symbol alphabet `{a: 1}` — a valid
ProbabilityMap whose only message symbol is `a` — the `/predict` pipeline does
not return the original message `"a"`: `generate_codes` hands `None` to
`encode_message`, whose first subscript raises a `TypeError`. -/
theorem c1_single_symbol_counterexample :
    pipeline [("a", (1:ℚ))] ['a'] = .error .typeError ∧
      pipeline [("a", (1:ℚ))] ['a'] ≠ .ok (String.mk ['a']) := by
  constructor
  · with_unfolding_all decide
  · with_unfolding_all decide

/-- C1, witness: the round trip instantiated on `{a:1/2, b:1/2}` and the
message `"ab"`. -/
theorem c1_witness :
    ∃ bits, encode_message ['a', 'b'] [("a", ['0']), ("b", ['1'])] = .ok bits ∧
      decode_message bits (HNode.mk none 1
          (HNode.mk (some "a") ((1:ℚ)/2) .pynone .pynone)
          (HNode.mk (some "b") (1/2) .pynone .pynone)) =
        .ok (String.mk ['a', 'b']) :=
  c1_roundtrip [("a", (1:ℚ)/2), ("b", 1/2)] _ [⟨some "a", 1/2, some "b", 1/2, 1⟩]
    _ ['a', 'b'] (by with_unfolding_all decide) (by with_unfolding_all decide)
    (by with_unfolding_all decide)
